import Mathlib

/-!
Verification development for the go-novendor unused-vendored-package calculator.

Go strings are modelled as lists of characters (`Str`), Go string sets
(`map[string]struct{}`) as `Finset Str`, and the filesystem together with the
external package-metadata resolver (`go/build` behind `doImport`) as an
explicit `World` value.  Every function of the novendor package is translated
from the source; loops that Go bounds only through side effects are given an
explicit fuel argument and return `Option`/`GoResult`, with `none`/`.err .fuel`
marking fuel exhaustion (a modelling artifact; the termination theorem shows
enough fuel always exists).  The file first gives all definitions, then the
theorems settling the claims.
-/

/-- Go strings, modelled as lists of characters. -/
abbrev Str := List Char

/-- Converts a Lean string literal to the `Str` model. -/
def str (s : String) : Str := s.data

/-- Go byte-wise lexicographic string comparison (`s <= t`), as used by
`sort.Strings`. -/
def strLe : Str → Str → Bool
  | [], _ => true
  | _ :: _, [] => false
  | a :: as, b :: bs => if a = b then strLe as bs else decide (a < b)

/-- The ordering relation corresponding to `strLe`, in `Prop` form. -/
def strLeP (a b : Str) : Prop := strLe a b = true

instance strLeP.decidableRel : DecidableRel strLeP := fun a b =>
  inferInstanceAs (Decidable (strLe a b = true))

instance strLeP.isTotal : IsTotal Str strLeP := by
  constructor
  intro a
  induction a with
  | nil => intro b; left; rfl
  | cons c as ih =>
    intro b
    cases b with
    | nil => right; rfl
    | cons d bs =>
      by_cases h : c = d
      · subst h
        rcases ih bs with h' | h'
        · left; simpa [strLeP, strLe] using h'
        · right; simpa [strLeP, strLe] using h'
      · rcases lt_or_gt_of_ne h with hlt | hgt
        · left; simp [strLeP, strLe, h, hlt]
        · right
          have hne : d ≠ c := fun hh => h hh.symm
          simp [strLeP, strLe, hne, hgt]

instance strLeP.isAntisymm : IsAntisymm Str strLeP := by
  constructor
  intro a
  induction a with
  | nil =>
    intro b _ hba
    cases b with
    | nil => rfl
    | cons d bs => simp [strLeP, strLe] at hba
  | cons c as ih =>
    intro b hab hba
    cases b with
    | nil => simp [strLeP, strLe] at hab
    | cons d bs =>
      by_cases h : c = d
      · subst h
        simp only [strLeP, strLe, if_pos rfl] at hab hba
        rw [ih bs hab hba]
      · have hne : d ≠ c := fun hh => h hh.symm
        simp only [strLeP, strLe, if_neg h, decide_eq_true_eq] at hab
        simp only [strLeP, strLe, if_neg hne, decide_eq_true_eq] at hba
        exact absurd (lt_trans hab hba) (lt_irrefl c)

instance strLeP.isTrans : IsTrans Str strLeP := by
  constructor
  intro a
  induction a with
  | nil => intro b c _ _; rfl
  | cons x as ih =>
    intro b c hab hbc
    cases b with
    | nil => simp [strLeP, strLe] at hab
    | cons y bs =>
      cases c with
      | nil => simp [strLeP, strLe] at hbc
      | cons z cs =>
        by_cases hxy : x = y
        · subst hxy
          simp only [strLeP, strLe, if_pos rfl] at hab
          by_cases hyz : x = z
          · subst hyz
            simp only [strLeP, strLe, if_pos rfl] at hbc ⊢
            exact ih bs cs hab hbc
          · simp only [strLeP, strLe, if_neg hyz] at hbc ⊢
            exact hbc
        · simp only [strLeP, strLe, if_neg hxy, decide_eq_true_eq] at hab
          by_cases hyz : y = z
          · subst hyz
            simp [strLeP, strLe, hxy, hab]
          · simp only [strLeP, strLe, if_neg hyz, decide_eq_true_eq] at hbc
            have hxz : x < z := lt_trans hab hbc
            have hne : x ≠ z := ne_of_lt hxz
            simp [strLeP, strLe, hne, hxz]

/-- Insertion of an element into a `strLe`-sorted list. -/
def insertSorted (x : Str) : List Str → List Str
  | [] => [x]
  | y :: ys => if strLe x y then x :: y :: ys else y :: insertSorted x ys

/-- Go `sort.Strings`: sorts a list of strings in ascending lexicographic
order (insertion sort; the result, a sorted permutation of the input, is
unique). -/
def goSortStrings : List Str → List Str
  | [] => []
  | x :: xs => insertSorted x (goSortStrings xs)

/-- `filepath.IsAbs` on Unix: the path starts with a slash. -/
def isAbs : Str → Bool
  | '/' :: _ => true
  | _ => false

/-- Splits a path at every slash (auxiliary; `cur` is the reversed current
segment). -/
def splitSlashAux : Str → Str → List Str
  | [], cur => [cur.reverse]
  | c :: rest, cur =>
    if c = '/' then cur.reverse :: splitSlashAux rest [] else splitSlashAux rest (c :: cur)

/-- Splits a path at every slash. -/
def splitSlash (p : Str) : List Str := splitSlashAux p []

/-- Joins path segments with single slashes. -/
def joinSegs : List Str → Str
  | [] => []
  | [s] => s
  | s :: rest => s ++ '/' :: joinSegs rest

/-- The nonempty slash-separated segments of a path. -/
def segsOf (p : Str) : List Str := (splitSlash p).filter (fun s => s ≠ [])

/-- One step of the `path.Clean` segment scan: skips empty and dot segments,
resolves a dot-dot segment against the segments accumulated so far (dropping
it at the root of a rooted path), and otherwise appends the segment. -/
def cleanStep (rooted : Bool) (acc : List Str) (seg : Str) : List Str :=
  if seg = [] ∨ seg = str r"." then acc
  else if seg = str r".." then
    if acc ≠ [] ∧ acc.getLast? ≠ some (str r"..") then acc.dropLast
    else if rooted then acc
    else acc ++ [str r".."]
  else acc ++ [seg]

/-- The cleaned segment list of a path. -/
def cleanSegs (rooted : Bool) (p : Str) : List Str :=
  (splitSlash p).foldl (cleanStep rooted) []

/-- Well-formedness of one cleaned segment of a rooted path: nonempty, not
a dot or dot-dot segment, and slash-free. -/
def SegOK (s : Str) : Prop :=
  s ≠ [] ∧ s ≠ str r"." ∧ s ≠ str r".." ∧ ∀ c ∈ s, c ≠ '/'

/-- Go `path.Clean` (equal to `filepath.Clean` on Unix). -/
def cleanPath (p : Str) : Str :=
  if p = [] then str r"."
  else
    let rooted := isAbs p
    let segs := cleanSegs rooted p
    if rooted then '/' :: joinSegs segs
    else if segs = [] then str r"."
    else joinSegs segs

/-- Go `path.Join` restricted to two elements, as used by the source
(empty elements are skipped and the result is cleaned). -/
def pathJoin (a b : Str) : Str :=
  if a = [] ∧ b = [] then []
  else if a = [] then cleanPath b
  else if b = [] then cleanPath a
  else cleanPath (a ++ '/' :: b)

/-- Go `path.Base`: strips trailing slashes and returns the last path
element (`"."` for the empty path, `"/"` for an all-slash path). -/
def pathBase (p : Str) : Str :=
  if p = [] then str r"."
  else
    let q := (p.reverse.dropWhile (fun c => c = '/')).reverse
    let tail := (q.reverse.takeWhile (fun c => c ≠ '/')).reverse
    if tail = [] then str r"/" else tail

/-- Whether `sub` occurs in `s` at position `i` (Go substring semantics:
`s[i:i+len(sub)] == sub`). -/
def occursAt (sub s : Str) (i : Nat) : Bool := sub.isPrefixOf (s.drop i)

/-- Scans positions `n, n-1, ..., 0` for the first (hence overall last)
occurrence of `sub` in `s`. -/
def lastIndexFrom (s sub : Str) : Nat → Option Nat
  | 0 => if occursAt sub s 0 then some 0 else none
  | n + 1 => if occursAt sub s (n + 1) then some (n + 1) else lastIndexFrom s sub n

/-- Go `strings.LastIndex`: the index of the last occurrence of `sub` in
`s`, or `none` when absent (Go returns `-1`). -/
def lastIndexOf (s sub : Str) : Option Nat := lastIndexFrom s sub s.length

/-- The literal vendor segment `"/vendor/"`. -/
def vendorSeg : Str := str r"/vendor/"

/-- Length of the common segment-wise prefix of two segment lists. -/
def commonLen : List Str → List Str → Nat
  | a :: as, b :: bs => if a = b then commonLen as bs + 1 else 0
  | _, _ => 0

/-- Go `filepath.Rel` on Unix (no volume names): cleans both paths, fails
when exactly one is rooted or when a leading dot-dot base segment remains
after removing the common prefix, and otherwise builds the relative path
from dot-dot segments and the remaining target segments. -/
def rel (basepath targpath : Str) : Option Str :=
  let base := cleanPath basepath
  let targ := cleanPath targpath
  if base = targ then some (str r".")
  else
    let base2 := if base = str r"." then [] else base
    if (isAbs base2 == isAbs targ) = false then none
    else
      let bsegs := segsOf base2
      let tsegs := segsOf targ
      let k := commonLen bsegs tsegs
      let brest := bsegs.drop k
      if brest.head? = some (str r"..") then none
      else if brest ≠ [] then
        some (joinSegs (brest.map (fun _ => str r"..") ++ tsegs.drop k))
      else some (joinSegs (tsegs.drop k))

/-- The internal-package test of `getAllImports` (source lines 274):
`filepath.Rel(projectRoot, dir)` succeeds and the result does not have the
string prefix `"../"`. -/
def relCheck (projectRoot dir : Str) : Bool :=
  match rel projectRoot dir with
  | none => false
  | some r => !((str r"../").isPrefixOf r)

/-- Follows the words of the spec: a directory lies within `projectRoot`
when, after cleaning, the root path is a segment-wise prefix of the
directory path (and they agree on rootedness).  This is the spec-side
notion compared against the `relCheck` computation of the source. -/
def liesWithinSpec (root dir : Str) : Bool :=
  (isAbs root == isAbs dir) && (segsOf (cleanPath root)).isPrefixOf (segsOf (cleanPath dir))

/-- A compiled grouping pattern, abstracted to its observable behaviour:
given the string to match, it returns the matched substring of a successful
anchored match (`FindStringSubmatch(...)[0]`), or `none`. -/
abbrev Pattern := Str → Option Str

/-- The pattern loop of `transformImportPath`: the first pattern that
matches replaces the string by exactly its matched substring; if none
matches, the string is unchanged. -/
def firstMatchRemainder : List Pattern → Str → Str
  | [], s => s
  | reg :: rest, s =>
    match reg s with
    | some m => m
    | none => firstMatchRemainder rest s

/-- `transformImportPath` of the source: splits at the last occurrence of
`"/vendor/"` and normalizes the part after it with the first matching
pattern. -/
def transformImportPath (importPath : Str) (regexps : List Pattern) : Str :=
  match lastIndexOf importPath vendorSeg with
  | some lastVendorIdx =>
    let idxAfterLastVendor := lastVendorIdx + vendorSeg.length
    importPath.take idxAfterLastVendor ++
      firstMatchRemainder regexps (importPath.drop idxAfterLastVendor)
  | none => firstMatchRemainder regexps importPath

/-- The per-entry rewrite of `Run` (source lines 68-74): an entry containing
`"/vendor/"` is replaced by its substring after the last occurrence;
other entries are unchanged. -/
def stripVendorSuffix (importPath : Str) : Str :=
  match lastIndexOf importPath vendorSeg with
  | none => importPath
  | some vendorIdx => importPath.drop (vendorIdx + vendorSeg.length)

/-- The fields of `go/build.Package` used by the source.  A partial result
(returned by the resolver together with an error) has whatever fields could
still be determined; an empty `importPath` marks a fully failed import. -/
structure GoPackage where
  importPath : Str := []
  name : Str := []
  dir : Str := []
  goFiles : List Str := []
  testGoFiles : List Str := []
  xTestGoFiles : List Str := []
  invalidGoFiles : List Str := []
  imports : List Str := []
  testImports : List Str := []
  xTestImports : List Str := []
deriving DecidableEq

/-- The error outcome of one resolver call, as far as the source inspects
it: no error, the `build.MultiplePackageError` ambiguity error, or any
other error. -/
inductive ResolveErr where
  | noErr : ResolveErr
  | multiplePackage : ResolveErr
  | otherErr : ResolveErr
deriving DecidableEq

/-- Fatal errors of the calculator.  `.fuel` is the modelling artifact
marking fuel exhaustion. -/
inductive GoErr where
  | fuel : GoErr
  | vendorName : Str → GoErr
  | statFail : Str → GoErr
  | notDir : Str → GoErr
deriving DecidableEq

/-- A Go `(value, error)` result. -/
inductive GoResult (α : Type) where
  | ok : α → GoResult α
  | err : GoErr → GoResult α
deriving DecidableEq

/-- A filesystem subtree: a plain file, or a directory with named children. -/
inductive FSNode where
  | file : FSNode
  | dir : List (Str × FSNode) → FSNode

/-- The environment of one run: the working directory, the `os.Stat`
directory test (`none` = stat error), the directory tree rooted at a path
(for `filepath.Walk`), and the external resolver behind `doImport`
(arguments: import path, source directory, ignored file names; result:
best-effort package metadata plus the error classification). -/
structure World where
  wd : Str
  statIsDir : Str → Option Bool
  treeAt : Str → FSNode
  doImport : Str → Str → Finset Str → GoPackage × ResolveErr

/-- All source file names of a package considered by the splitter loop
(production, internal-test and external-test files). -/
def pkgFiles (pkg : GoPackage) : List Str :=
  pkg.goFiles ++ pkg.testGoFiles ++ pkg.xTestGoFiles

/-- The iteration of `getPkgsInDir` (source lines 314-362): resolve with the
current ignore set; stop on an empty import path, on an already-examined
path, on an unambiguous resolution (appending the package), or when no
valid files remain; otherwise append the re-resolution that excludes the
invalid files and continue with the ignore set grown by the valid files. -/
def getPkgsInDirLoop (w : World) (importPkgPath srcDir : Str) (examinedImports : Finset Str) :
    Nat → Finset Str → List GoPackage → Option (List GoPackage)
  | 0, _, _ => none
  | fuel + 1, ctxIgnoreFiles, pkgs =>
    let res := w.doImport importPkgPath srcDir ctxIgnoreFiles
    if res.1.importPath = [] then some pkgs
    else if res.1.importPath ∈ examinedImports then some pkgs
    else if res.2 ≠ ResolveErr.multiplePackage then some (pkgs ++ [res.1])
    else
      let invalidFilesMap : Finset Str := res.1.invalidGoFiles.toFinset
      let validGoFiles : Finset Str :=
        ((pkgFiles res.1).filter (fun f => f ∉ invalidFilesMap)).toFinset
      if validGoFiles = ∅ then some pkgs
      else
        let pkgs2 :=
          let res2 := w.doImport importPkgPath srcDir (ctxIgnoreFiles ∪ invalidFilesMap)
          if res2.1.importPath ≠ [] then pkgs ++ [res2.1] else pkgs
        getPkgsInDirLoop w importPkgPath srcDir examinedImports fuel
          (ctxIgnoreFiles ∪ validGoFiles) pkgs2

/-- `getPkgsInDir` of the source: import paths without a dot are treated as
standard-library packages and resolve to no packages at all; otherwise the
splitter loop runs. -/
def getPkgsInDir (w : World) (fuel : Nat) (importPkgPath srcDir : Str)
    (examinedImports : Finset Str) : Option (List GoPackage) :=
  if importPkgPath.contains '.' = false then some []
  else getPkgsInDirLoop w importPkgPath srcDir examinedImports fuel ∅ []

/-- `getAllImports` of the source.  The visited set (`examinedImports`,
threaded by reference in Go) is passed in and returned updated.  For each
resolved package: record it, decide internal treatment via `relCheck`
(updating the resolution context and, at the root level only, folding the
test imports in), and recurse into each not-yet-examined import with
`includeTests` hard-coded to `false`. -/
def getAllImports (w : World) :
    Nat → Str → Str → Str → Finset Str → Bool → Option (Finset Str × Finset Str)
  | 0, _, _, _, _, _ => none
  | fuel + 1, importPkgPath, srcDir, projectRoot, examinedImports, includeTests =>
    match getPkgsInDir w (fuel + 1) importPkgPath srcDir examinedImports with
    | none => none
    | some pkgs =>
      pkgs.foldl
        (fun st pkg =>
          match st with
          | none => none
          | some (importedPkgs, examined) =>
            let importedPkgs2 := insert pkg.importPath importedPkgs
            let examined2 := insert pkg.importPath examined
            let isInternal := relCheck projectRoot pkg.dir
            let srcDir2 := if isInternal then pkg.dir else srcDir
            let currPkgImports := pkg.imports ++
              (if isInternal && includeTests then pkg.testImports ++ pkg.xTestImports else [])
            currPkgImports.foldl
              (fun st2 currImport =>
                match st2 with
                | none => none
                | some (acc, exam) =>
                  if currImport ∈ exam then some (acc, exam)
                  else
                    match getAllImports w fuel currImport srcDir2 projectRoot exam false with
                    | none => none
                    | some (currImportedPkgs, exam2) => some (acc ∪ currImportedPkgs, exam2))
              (some (importedPkgs2, examined2)))
        (some ((∅ : Finset Str), examinedImports))

/-- The test-free restriction of the closure computation: identical to
`getAllImports` except that there is no `includeTests` parameter and the
test imports are never folded in; it states that below the root level the
source computation never consults test imports. -/
def getAllImportsNoTests (w : World) :
    Nat → Str → Str → Str → Finset Str → Option (Finset Str × Finset Str)
  | 0, _, _, _, _ => none
  | fuel + 1, importPkgPath, srcDir, projectRoot, examinedImports =>
    match getPkgsInDir w (fuel + 1) importPkgPath srcDir examinedImports with
    | none => none
    | some pkgs =>
      pkgs.foldl
        (fun st pkg =>
          match st with
          | none => none
          | some (importedPkgs, examined) =>
            let importedPkgs2 := insert pkg.importPath importedPkgs
            let examined2 := insert pkg.importPath examined
            let isInternal := relCheck projectRoot pkg.dir
            let srcDir2 := if isInternal then pkg.dir else srcDir
            pkg.imports.foldl
              (fun st2 currImport =>
                match st2 with
                | none => none
                | some (acc, exam) =>
                  if currImport ∈ exam then some (acc, exam)
                  else
                    match getAllImportsNoTests w fuel currImport srcDir2 projectRoot exam with
                    | none => none
                    | some (currImportedPkgs, exam2) => some (acc ∪ currImportedPkgs, exam2))
              (some (importedPkgs2, examined2)))
        (some ((∅ : Finset Str), examinedImports))

/-- `allImportsInPkg` of the source: the closure of the package in `pkgDir`,
with test imports considered at this root level. -/
def allImportsInPkg (w : World) (fuel : Nat) (pkgDir projectDir : Str) : Option (Finset Str) :=
  (getAllImports w fuel (str r".") pkgDir projectDir ∅ true).map (fun r => r.1)

mutual
/-- The directory paths visited by `filepath.Walk` below (and including)
`p`; the walk callback ignores non-directories, and never prunes, so every
directory of the subtree appears.  (Go visits children in sorted name
order; the inventory built from this list is a set, so the order is
immaterial here.) -/
def walkDirs (p : Str) : FSNode → List Str
  | .file => []
  | .dir children => p :: walkDirsList p children

/-- The directory paths visited below the children of a directory at `p`. -/
def walkDirsList (p : Str) : List (Str × FSNode) → List Str
  | [] => []
  | child :: rest => walkDirs (p ++ '/' :: child.1) child.2 ++ walkDirsList p rest
end

/-- The walk callback action of `allVendoredPackages` at one directory, as
a predicate: the directory resolves (fresh visited set, import path `"."`)
to a package list containing a named package, and the import path of the
first package of that list is `q`. -/
def contributesPkg (w : World) (fuel : Nat) (d q : Str) : Prop :=
  ∃ p0 rest, getPkgsInDir w fuel (str r".") d ∅ = some (p0 :: rest) ∧
    ((p0 :: rest).any (fun g => !g.name.isEmpty)) = true ∧ p0.importPath = q

/-- The fold of the walk callback of `allVendoredPackages` over the visited
directories: a directory containing at least one named package records
the import path of the first resolved package. -/
def inventoryFold (w : World) (fuel : Nat) : List Str → Finset Str → GoResult (Finset Str)
  | [], acc => .ok acc
  | dirPath :: rest, acc =>
    match getPkgsInDir w fuel (str r".") dirPath ∅ with
    | none => .err .fuel
    | some buildPkgs =>
      if buildPkgs.any (fun g => !g.name.isEmpty) then
        match buildPkgs with
        | [] => inventoryFold w fuel rest acc
        | p0 :: _ => inventoryFold w fuel rest (insert p0.importPath acc)
      else inventoryFold w fuel rest acc

/-- The absolutization in `allVendoredPackages`: a relative input is joined
onto the working directory. -/
def vendorAbsPath (w : World) (vendorDir : Str) : Str :=
  if isAbs vendorDir then vendorDir else pathJoin w.wd vendorDir

/-- `allVendoredPackages` of the source: make the input absolute against the
working directory, require its base name to be exactly `vendor`, require it
to stat successfully as a directory, then walk the whole subtree recording
package import paths. -/
def allVendoredPackages (w : World) (fuel : Nat) (vendorDir : Str) : GoResult (Finset Str) :=
  let vendorDirAbsPath := vendorAbsPath w vendorDir
  if pathBase vendorDirAbsPath ≠ str r"vendor" then .err (.vendorName vendorDirAbsPath)
  else
    match w.statIsDir vendorDirAbsPath with
    | none => .err (.statFail vendorDirAbsPath)
    | some false => .err (.notDir vendorDirAbsPath)
    | some true =>
      inventoryFold w fuel (walkDirs vendorDirAbsPath (w.treeAt vendorDirAbsPath)) ∅

/-- `sortedVals` of the source: the keys of a set, sorted lexicographically.
The set is a quotient of key lists by permutation, so the function is
defined by lifting the sort, with the permutation-invariance proof (sorting
is blind to the order in which the Go map yields its keys) given inline. -/
def sortedVals (s : Finset Str) : List Str :=
  Quot.liftOn s.val goSortStrings (fun a b h => by
    have hper : ∀ (x : Str) (l : List Str), List.Perm (insertSorted x l) (x :: l) := by
      intro x l
      induction l with
      | nil => simp [insertSorted]
      | cons y ys ih =>
        by_cases hc : strLe x y
        · simp [insertSorted, hc]
        · simp only [insertSorted, hc, Bool.false_eq_true, if_false]
          exact List.Perm.trans (ih.cons y) (List.Perm.swap x y ys)
    have hgper : ∀ l : List Str, List.Perm (goSortStrings l) l := by
      intro l
      induction l with
      | nil => simp [goSortStrings]
      | cons x xs ih =>
        exact List.Perm.trans (hper x (goSortStrings xs)) (ih.cons x)
    have hsort : ∀ (x : Str) (l : List Str),
        l.Sorted strLeP → (insertSorted x l).Sorted strLeP := by
      intro x l
      induction l with
      | nil => intro hempty; simp [insertSorted, List.Sorted]
      | cons y ys ih =>
        intro hs
        rw [List.sorted_cons] at hs
        by_cases hc : strLe x y
        · simp only [insertSorted, hc, if_true]
          rw [List.sorted_cons]
          refine ⟨?_, List.sorted_cons.mpr hs⟩
          intro b hb
          rcases List.mem_cons.mp hb with hb | hb
          · subst hb; exact hc
          · exact strLeP.isTrans.trans x y b hc (hs.1 b hb)
        · simp only [insertSorted, hc, Bool.false_eq_true, if_false]
          rw [List.sorted_cons]
          constructor
          · intro b hb
            have hb' : b ∈ x :: ys := (hper x ys).mem_iff.mp hb
            rcases List.mem_cons.mp hb' with hb' | hb'
            · rw [hb']
              rcases strLeP.isTotal.total x y with h' | h'
              · exact absurd h' hc
              · exact h'
            · exact hs.1 b hb'
          · exact ih hs.2
    have hgsort : ∀ l : List Str, (goSortStrings l).Sorted strLeP := by
      intro l
      induction l with
      | nil => simp [goSortStrings, List.Sorted]
      | cons x xs ih => exact hsort x _ ih
    have hab : List.Perm a b := h
    exact List.eq_of_perm_of_sorted ((hgper a).trans (hab.trans (hgper b).symm))
      (hgsort a) (hgsort b))

/-- `toAbsPaths` of the source. -/
def toAbsPaths (ps : List Str) (wd : Str) : List Str :=
  ps.map (fun p => if isAbs p then p else pathJoin wd p)

/-- Go map assignment on an association list keyed by vendor-directory
path. -/
def assocSet (k : Str) (v : Finset Str) : List (Str × Finset Str) → List (Str × Finset Str)
  | [] => [(k, v)]
  | e :: rest => if e.1 = k then (k, v) :: rest else e :: assocSet k v rest

/-- The first loop of `unusedVendoredPackages` (source lines 105-120): for
each root whose `vendor` child stats as a directory, record the normalized
inventory of that vendor directory. -/
def buildVendorDirs (w : World) (fuel : Nat) (regexps : List Pattern) :
    List Str → List (Str × Finset Str) → GoResult (List (Str × Finset Str))
  | [], acc => .ok acc
  | pkgPath :: rest, acc =>
    let vendorDirPath := pathJoin pkgPath (str r"vendor")
    match w.statIsDir vendorDirPath with
    | none => buildVendorDirs w fuel regexps rest acc
    | some false => buildVendorDirs w fuel regexps rest acc
    | some true =>
      match allVendoredPackages w fuel vendorDirPath with
      | .err e => .err e
      | .ok pkgsInVendorDir =>
        buildVendorDirs w fuel regexps rest
          (assocSet vendorDirPath
            (pkgsInVendorDir.image (fun p => transformImportPath p regexps)) acc)

/-- The second loop of `unusedVendoredPackages` (source lines 125-136): for
each root and ignored root, delete every normalized import of its closure
from every vendor-directory set. -/
def subtractClosures (w : World) (fuel : Nat) (projectDir : Str) (regexps : List Pattern) :
    List Str → List (Str × Finset Str) → GoResult (List (Str × Finset Str))
  | [], vendorDirs => .ok vendorDirs
  | pkgPath :: rest, vendorDirs =>
    match allImportsInPkg w fuel pkgPath projectDir with
    | none => .err .fuel
    | some importsInPkg =>
      subtractClosures w fuel projectDir regexps rest
        (vendorDirs.map (fun e =>
          (e.1, e.2 \ importsInPkg.image (fun ip => transformImportPath ip regexps))))

/-- `unusedVendoredPackages` of the source: absolutize the project directory
and the roots, build the normalized vendor inventories, then subtract the
normalized closures of all roots and ignored roots. -/
def unusedVendoredPackages (w : World) (fuel : Nat) (projectDir : Str)
    (pkgs ignorePkgs : List Str) (regexps : List Pattern) :
    GoResult (List (Str × Finset Str)) :=
  let wd := w.wd
  let projectDirAbs := if isAbs projectDir then projectDir else pathJoin wd projectDir
  let absPkgPaths := toAbsPaths pkgs wd
  match buildVendorDirs w fuel regexps absPkgPaths [] with
  | .err e => .err e
  | .ok vendorDirs =>
    subtractClosures w fuel projectDirAbs regexps
      (absPkgPaths ++ toAbsPaths ignorePkgs wd) vendorDirs

/-- The run parameters (`Param` of the source). -/
structure Param where
  pkgRegexps : List Pattern := []
  includeVendorInImportPath : Bool := false
  ignorePkgs : List Str := []

/-- The vendor-stripping stage of `Run` (source lines 67-75): skipped
entirely when `includeVendorInImportPath` is set, otherwise applied to
every entry. -/
def runStripStage (includeVendorInImportPath : Bool) (out : List Str) : List Str :=
  if includeVendorInImportPath then out else out.map stripVendorSuffix

/-- `Run` of the source, as the list of lines it writes: collect the sorted
values of every vendor-directory set (Go iterates the map in unspecified
order, modelled by the `shuffle` parameter ranging over permutations),
strip vendor prefixes unless configured otherwise, and sort. -/
def RunOut (w : World) (fuel : Nat) (projectDir : Str) (pkgs : List Str) (param : Param)
    (shuffle : List (Str × Finset Str) → List (Str × Finset Str)) : GoResult (List Str) :=
  match unusedVendoredPackages w fuel projectDir pkgs param.ignorePkgs param.pkgRegexps with
  | .err e => .err e
  | .ok unusedPkgs =>
    .ok (goSortStrings (runStripStage param.includeVendorInImportPath
      ((shuffle unusedPkgs).flatMap (fun e => sortedVals e.2))))

/-- A root-level package whose only dependency is the test import `x.b`
(used by the depth-sensitivity scenario). -/
def pkgA : GoPackage :=
  { importPath := str r"x.a", name := str r"a", dir := str r"/p/a", testImports := [str r"x.b"] }

/-- A package whose only dependency is the test import `x.c`. -/
def pkgB : GoPackage :=
  { importPath := str r"x.b", name := str r"b", dir := str r"/p/b", testImports := [str r"x.c"] }

/-- A package with no dependencies at all. -/
def pkgC : GoPackage := { importPath := str r"x.c", name := str r"c", dir := str r"/p/c" }

/-- The world of the test-import depth scenario: three packages under the
project root `/p`, chained only through test imports. -/
def cw3 : World where
  wd := str r"/p"
  statIsDir := fun _ => some true
  treeAt := fun _ => .dir []
  doImport := fun importPkgPath _ _ =>
    if importPkgPath = str r"x.a" then (pkgA, .noErr)
    else if importPkgPath = str r"x.b" then (pkgB, .noErr)
    else if importPkgPath = str r"x.c" then (pkgC, .noErr)
    else ({}, .noErr)

/-- The package living inside the hidden directory `.h` of the vendor tree
of `cw4`. -/
def pkgH : GoPackage :=
  { importPath := str r"v/.h/q", name := str r"q", dir := str r"/r/p/vendor/.h/q" }

/-- A world whose vendor tree contains a package only inside the hidden
directory `.h`: `treeAt` gives the subtree below `/r/p/vendor`, and the
resolver finds a named package only in `/r/p/vendor/.h/q`. -/
def cw4 : World where
  wd := str r"/r"
  statIsDir := fun _ => some true
  treeAt := fun _ => .dir [(str r".h", .dir [(str r"q", .dir [])])]
  doImport := fun _ srcDir _ =>
    if srcDir = str r"/r/p/vendor/.h/q" then (pkgH, .noErr) else ({}, .noErr)

/-- A package resolved outside the project root: its directory `/a` is the
parent of the project root `/a/b` used in the `cw5` scenario. -/
def pkgT : GoPackage :=
  { importPath := str r"t.t", name := str r"t", dir := str r"/a", testImports := [str r"u.u"] }

/-- A package with no dependencies, resolved for the import `u.u`. -/
def pkgU : GoPackage := { importPath := str r"u.u", name := str r"u", dir := str r"/q" }

/-- The world of the parent-directory scenario: the package resolved for
`t.t` lives at `/a`, the parent of the project root `/a/b`. -/
def cw5 : World where
  wd := str r"/a/b"
  statIsDir := fun _ => some true
  treeAt := fun _ => .dir []
  doImport := fun importPkgPath _ _ =>
    if importPkgPath = str r"t.t" then (pkgT, .noErr)
    else if importPkgPath = str r"u.u" then (pkgU, .noErr)
    else ({}, .noErr)

/-- The ambiguous-directory package of the splitter-termination scenario:
two files, of which `b.go` is invalid for the resolved variant. -/
def pkgM : GoPackage :=
  { importPath := str r"m.x", name := str r"m", dir := str r"/d",
    goFiles := [str r"a.go", str r"b.go"], invalidGoFiles := [str r"b.go"] }

/-- The variant of `pkgM` resolved once the invalid file is ignored. -/
def pkgM2 : GoPackage :=
  { importPath := str r"m.x", name := str r"m", dir := str r"/d", goFiles := [str r"a.go"] }

/-- The world of the splitter-termination scenario: the directory holds the
files `a.go` and `b.go`; resolving with an empty ignore set reports the
multiple-package ambiguity, resolving with `b.go` ignored succeeds, and any
other ignore set resolves to nothing.  The resolver never reports a file
that was in the ignore set it was given. -/
def cw6 : World where
  wd := str r"/d"
  statIsDir := fun _ => some true
  treeAt := fun _ => .dir []
  doImport := fun _ _ ign =>
    if ign = (∅ : Finset Str) then (pkgM, .multiplePackage)
    else if ign = {str r"b.go"} then (pkgM2, .noErr)
    else ({}, .noErr)

/-- The package at the project root of the happy-path world `wOk`. -/
def pkgRoot : GoPackage := { importPath := str r"m", name := str r"m", dir := str r"/r/p" }

/-- The vendored package of the happy-path world `wOk`. -/
def pkgL : GoPackage :=
  { importPath := str r"v/l.x", name := str r"l", dir := str r"/r/p/vendor/l.x" }

/-- A small happy-path world: one root `/r/p` containing the package `m`
with no imports, and a vendor directory holding the single unused package
`v/l.x`. -/
def wOk : World where
  wd := str r"/r"
  statIsDir := fun _ => some true
  treeAt := fun _ => .dir [(str r"l.x", .dir [])]
  doImport := fun _ srcDir _ =>
    if srcDir = str r"/r/p/vendor/l.x" then (pkgL, .noErr)
    else if srcDir = str r"/r/p" then (pkgRoot, .noErr)
    else ({}, .noErr)

theorem strLe_total (a b : Str) : strLe a b = true ∨ strLe b a = true :=
  strLeP.isTotal.total a b

theorem strLe_trans (a b c : Str) (h1 : strLe a b = true) (h2 : strLe b c = true) :
    strLe a c = true :=
  strLeP.isTrans.trans a b c h1 h2

theorem insertSorted_perm (x : Str) :
    ∀ l : List Str, List.Perm (insertSorted x l) (x :: l) := by
  intro l
  induction l with
  | nil => simp [insertSorted]
  | cons y ys ih =>
    by_cases h : strLe x y
    · simp [insertSorted, h]
    · simp only [insertSorted, h, Bool.false_eq_true, if_false]
      exact List.Perm.trans (ih.cons y) (List.Perm.swap x y ys)

theorem goSortStrings_perm : ∀ l : List Str, List.Perm (goSortStrings l) l := by
  intro l
  induction l with
  | nil => simp [goSortStrings]
  | cons x xs ih =>
    exact List.Perm.trans (insertSorted_perm x (goSortStrings xs)) (ih.cons x)

theorem insertSorted_sorted (x : Str) :
    ∀ l : List Str, l.Sorted strLeP → (insertSorted x l).Sorted strLeP := by
  intro l
  induction l with
  | nil => intro h; simp [insertSorted, List.Sorted]
  | cons y ys ih =>
    intro hs
    rw [List.sorted_cons] at hs
    by_cases h : strLe x y
    · simp only [insertSorted, h, if_true]
      rw [List.sorted_cons]
      refine ⟨?_, List.sorted_cons.mpr hs⟩
      intro b hb
      rcases List.mem_cons.mp hb with hb | hb
      · subst hb; exact h
      · exact strLe_trans x y b h (hs.1 b hb)
    · simp only [insertSorted, h, Bool.false_eq_true, if_false]
      rw [List.sorted_cons]
      constructor
      · intro b hb
        have hb' : b ∈ x :: ys := (insertSorted_perm x ys).mem_iff.mp hb
        rcases List.mem_cons.mp hb' with hb' | hb'
        · rw [hb']
          rcases strLe_total x y with h' | h'
          · exact absurd h' h
          · exact h'
        · exact hs.1 b hb'
      · exact ih hs.2

theorem goSortStrings_sorted : ∀ l : List Str, (goSortStrings l).Sorted strLeP := by
  intro l
  induction l with
  | nil => simp [goSortStrings, List.Sorted]
  | cons x xs ih => exact insertSorted_sorted x _ ih

theorem goSortStrings_eq_of_perm {l1 l2 : List Str} (h : List.Perm l1 l2) :
    goSortStrings l1 = goSortStrings l2 :=
  List.eq_of_perm_of_sorted
    (((goSortStrings_perm l1).trans h).trans (goSortStrings_perm l2).symm)
    (goSortStrings_sorted l1) (goSortStrings_sorted l2)

/-- Claim C7: the calculator output is deterministic and idempotent.  `RunOut`
is a pure function of the world and its parameters, so two runs on the same
unchanged world agree; the only unspecified behaviour in the source, the Go
map iteration order of the result sets (modelled by the `shuffle`
parameter), does not affect the output, and the emitted list is always
sorted lexicographically, because every result set is sorted before being
reported and the final list is sorted again. -/
theorem runOut_deterministic_sorted (w : World) (fuel : Nat) (projectDir : Str)
    (pkgs : List Str) (param : Param)
    (sh1 sh2 : List (Str × Finset Str) → List (Str × Finset Str))
    (h1 : ∀ l, List.Perm (sh1 l) l) (h2 : ∀ l, List.Perm (sh2 l) l) :
    RunOut w fuel projectDir pkgs param sh1 = RunOut w fuel projectDir pkgs param sh2 ∧
    (∀ out, RunOut w fuel projectDir pkgs param sh1 = .ok out → out.Sorted strLeP) := by
  have key : ∀ u : List (Str × Finset Str),
      goSortStrings (runStripStage param.includeVendorInImportPath
        ((sh1 u).flatMap (fun e => sortedVals e.2))) =
      goSortStrings (runStripStage param.includeVendorInImportPath
        ((sh2 u).flatMap (fun e => sortedVals e.2))) := by
    intro u
    apply goSortStrings_eq_of_perm
    have hp : List.Perm ((sh1 u).flatMap (fun e => sortedVals e.2))
        ((sh2 u).flatMap (fun e => sortedVals e.2)) :=
      ((h1 u).trans (h2 u).symm).flatMap_right _
    unfold runStripStage
    split
    · exact hp
    · exact hp.map _
  constructor
  · unfold RunOut
    cases unusedVendoredPackages w fuel projectDir pkgs param.ignorePkgs param.pkgRegexps with
    | err e => rfl
    | ok u => exact congrArg GoResult.ok (key u)
  · intro out hout
    unfold RunOut at hout
    cases hu : unusedVendoredPackages w fuel projectDir pkgs param.ignorePkgs param.pkgRegexps with
    | err e => rw [hu] at hout; cases hout
    | ok u =>
      rw [hu] at hout
      have hout2 : GoResult.ok (goSortStrings (runStripStage param.includeVendorInImportPath
          ((sh1 u).flatMap (fun e => sortedVals e.2)))) = GoResult.ok out := hout
      cases hout2
      exact goSortStrings_sorted _

/-- Witness for C7: the theorem applied to the happy-path world with the
identity iteration order, at its concretely computed output. -/
theorem runOut_deterministic_sorted_witness : List.Sorted strLeP [str r"v/l.x"] :=
  (runOut_deterministic_sorted wOk 6 (str r"/r/p") [str r"/r/p"] {} id id
    (fun l => List.Perm.refl l) (fun l => List.Perm.refl l)).2 [str r"v/l.x"] (by decide)

theorem occursAt_gt {sub s : Str} {j : Nat} (hsub : sub ≠ []) (h : s.length < j) :
    occursAt sub s j = false := by
  unfold occursAt
  rw [List.drop_eq_nil_of_le (le_of_lt h)]
  cases sub with
  | nil => exact absurd rfl hsub
  | cons c cs => rfl

theorem lastIndexFrom_spec_some (s sub : Str) :
    ∀ n i, lastIndexFrom s sub n = some i →
      occursAt sub s i = true ∧ i ≤ n ∧ ∀ j, j ≤ n → occursAt sub s j = true → j ≤ i := by
  intro n
  induction n with
  | zero =>
    intro i h
    unfold lastIndexFrom at h
    by_cases hc : occursAt sub s 0 = true
    · rw [if_pos hc] at h
      cases h
      exact ⟨hc, le_refl 0, fun j hj _ => hj⟩
    · rw [if_neg hc] at h
      cases h
  | succ n ih =>
    intro i h
    unfold lastIndexFrom at h
    by_cases hc : occursAt sub s (n + 1) = true
    · rw [if_pos hc] at h
      cases h
      exact ⟨hc, le_refl _, fun j hj _ => hj⟩
    · rw [if_neg hc] at h
      obtain ⟨h1, h2, h3⟩ := ih i h
      refine ⟨h1, le_trans h2 (Nat.le_succ n), fun j hj hocc => ?_⟩
      rcases Nat.lt_or_ge j (n + 1) with hj' | hj'
      · exact h3 j (Nat.lt_succ_iff.mp hj') hocc
      · have : j = n + 1 := le_antisymm hj hj'
        rw [this] at hocc
        exact absurd hocc hc

theorem lastIndexFrom_spec_none (s sub : Str) :
    ∀ n, lastIndexFrom s sub n = none → ∀ j, j ≤ n → occursAt sub s j = false := by
  intro n
  induction n with
  | zero =>
    intro h j hj
    unfold lastIndexFrom at h
    by_cases hc : occursAt sub s 0 = true
    · rw [if_pos hc] at h; cases h
    · interval_cases j
      exact Bool.not_eq_true _ |>.mp hc
  | succ n ih =>
    intro h j hj
    unfold lastIndexFrom at h
    by_cases hc : occursAt sub s (n + 1) = true
    · rw [if_pos hc] at h; cases h
    · rw [if_neg hc] at h
      rcases Nat.lt_or_ge j (n + 1) with hj' | hj'
      · exact ih h j (Nat.lt_succ_iff.mp hj')
      · have : j = n + 1 := le_antisymm hj hj'
        rw [this]
        exact Bool.not_eq_true _ |>.mp hc

theorem lastIndexOf_spec_some {s sub : Str} {i : Nat} (hsub : sub ≠ [])
    (h : lastIndexOf s sub = some i) :
    occursAt sub s i = true ∧ ∀ j, occursAt sub s j = true → j ≤ i := by
  obtain ⟨h1, _, h3⟩ := lastIndexFrom_spec_some s sub s.length i h
  refine ⟨h1, fun j hocc => ?_⟩
  rcases le_or_lt j s.length with hj | hj
  · exact h3 j hj hocc
  · rw [occursAt_gt hsub hj] at hocc
    cases hocc

theorem lastIndexOf_spec_none {s sub : Str} (hsub : sub ≠ [])
    (h : lastIndexOf s sub = none) : ∀ j, occursAt sub s j = false := by
  intro j
  rcases le_or_lt j s.length with hj | hj
  · exact lastIndexFrom_spec_none s sub s.length h j hj
  · exact occursAt_gt hsub hj

theorem firstMatchRemainder_of_none : ∀ (rs : List Pattern) (s : Str),
    (∀ r ∈ rs, r s = none) → firstMatchRemainder rs s = s := by
  intro rs
  induction rs with
  | nil => intro s _; rfl
  | cons r rest ih =>
    intro s h
    unfold firstMatchRemainder
    rw [h r (List.mem_cons_self r rest)]
    exact ih s (fun g hg => h g (List.mem_cons_of_mem r hg))

theorem firstMatchRemainder_of_first : ∀ (rs1 : List Pattern) (r : Pattern) (rs2 : List Pattern)
    (s m : Str), (∀ g ∈ rs1, g s = none) → r s = some m →
    firstMatchRemainder (rs1 ++ r :: rs2) s = m := by
  intro rs1
  induction rs1 with
  | nil =>
    intro r rs2 s m _ h2
    simp only [List.nil_append]
    unfold firstMatchRemainder
    rw [h2]
  | cons g rest ih =>
    intro r rs2 s m h1 h2
    simp only [List.cons_append]
    unfold firstMatchRemainder
    rw [h1 g (List.mem_cons_self g rest)]
    exact ih r rs2 s m (fun g' hg' => h1 g' (List.mem_cons_of_mem g hg')) h2

/-- Claim C1: for every import path and every list of compiled grouping
patterns, `transformImportPath` splits the path at the last occurrence of
the literal segment `"/vendor/"` into a prefix part (up to and including
that segment, empty when the segment is absent) and a remainder, applies
the first matching pattern to the remainder (replacing it with exactly the
matched substring, or leaving it unchanged when no pattern matches), and
returns the concatenation.  The function is a total Lean function of its
two arguments, hence pure and total. -/
theorem transformImportPath_spec (path : Str) (rs : List Pattern) :
    ∃ pre rem,
      transformImportPath path rs = pre ++ firstMatchRemainder rs rem ∧
      path = pre ++ rem ∧
      ((pre = [] ∧ ∀ j, occursAt vendorSeg path j = false) ∨
        ((∃ t, pre = t ++ vendorSeg) ∧
          ∃ i, pre = path.take (i + vendorSeg.length) ∧
            rem = path.drop (i + vendorSeg.length) ∧
            occursAt vendorSeg path i = true ∧
            ∀ j, occursAt vendorSeg path j = true → j ≤ i)) ∧
      ((∀ r ∈ rs, r rem = none) → firstMatchRemainder rs rem = rem) ∧
      (∀ rs1 r rs2 m, rs = rs1 ++ r :: rs2 → (∀ g ∈ rs1, g rem = none) → r rem = some m →
        firstMatchRemainder rs rem = m) := by
  cases h : lastIndexOf path vendorSeg with
  | none =>
    refine ⟨[], path, ?_, rfl, ?_, ?_, ?_⟩
    · simp only [transformImportPath, h, List.nil_append]
    · exact Or.inl ⟨rfl, lastIndexOf_spec_none (by decide) h⟩
    · exact firstMatchRemainder_of_none rs path
    · intro rs1 r rs2 m hrs h1 h2
      rw [hrs]
      exact firstMatchRemainder_of_first rs1 r rs2 path m h1 h2
  | some i =>
    obtain ⟨hocc, hmax⟩ := lastIndexOf_spec_some (by decide) h
    refine ⟨path.take (i + vendorSeg.length), path.drop (i + vendorSeg.length), ?_,
      (List.take_append_drop _ _).symm, ?_, ?_, ?_⟩
    · simp only [transformImportPath, h]
    · refine Or.inr ⟨?_, i, rfl, rfl, hocc, hmax⟩
      have hpre : vendorSeg <+: path.drop i := List.isPrefixOf_iff_prefix.mp hocc
      obtain ⟨t, ht⟩ := hpre
      refine ⟨path.take i, ?_⟩
      rw [List.take_add path i vendorSeg.length, ← ht, List.take_left]
    · exact firstMatchRemainder_of_none rs _
    · intro rs1 r rs2 m hrs h1 h2
      rw [hrs]
      exact firstMatchRemainder_of_first rs1 r rs2 _ m h1 h2

/-- Witness for C1: the theorem applied at a concrete path and an empty
pattern list. -/
theorem transformImportPath_spec_witness :
    ∃ pre rem,
      transformImportPath (str r"a/vendor/b.c/d") [] = pre ++ firstMatchRemainder [] rem ∧
      str r"a/vendor/b.c/d" = pre ++ rem ∧
      ((pre = [] ∧ ∀ j, occursAt vendorSeg (str r"a/vendor/b.c/d") j = false) ∨
        ((∃ t, pre = t ++ vendorSeg) ∧
          ∃ i, pre = (str r"a/vendor/b.c/d").take (i + vendorSeg.length) ∧
            rem = (str r"a/vendor/b.c/d").drop (i + vendorSeg.length) ∧
            occursAt vendorSeg (str r"a/vendor/b.c/d") i = true ∧
            ∀ j, occursAt vendorSeg (str r"a/vendor/b.c/d") j = true → j ≤ i)) ∧
      ((∀ r ∈ ([] : List Pattern), r rem = none) → firstMatchRemainder [] rem = rem) ∧
      (∀ rs1 r rs2 m, ([] : List Pattern) = rs1 ++ r :: rs2 →
        (∀ g ∈ rs1, g rem = none) → r rem = some m → firstMatchRemainder [] rem = m) :=
  transformImportPath_spec (str r"a/vendor/b.c/d") []

/-- Claim C10: with `IncludeVendorInImportPath` unset, the output stage of
`Run` rewrites every entry containing the segment `"/vendor/"` to the
substring strictly after the last occurrence of that segment and leaves
entries without the segment unchanged; with the option set, no entry is
rewritten.  The final conjunct places this stage inside `Run` itself. -/
theorem runStripStage_spec :
    (∀ out, runStripStage true out = out) ∧
    (∀ out, runStripStage false out = out.map stripVendorSuffix) ∧
    (∀ s : Str, (∀ j, occursAt vendorSeg s j = false) → stripVendorSuffix s = s) ∧
    (∀ (s : Str) (i : Nat), occursAt vendorSeg s i = true →
      (∀ j, occursAt vendorSeg s j = true → j ≤ i) →
      stripVendorSuffix s = s.drop (i + vendorSeg.length) ∧
      s = s.take (i + vendorSeg.length) ++ stripVendorSuffix s) ∧
    (∀ w fuel pd pkgs param sh u,
      unusedVendoredPackages w fuel pd pkgs param.ignorePkgs param.pkgRegexps = GoResult.ok u →
      RunOut w fuel pd pkgs param sh = GoResult.ok (goSortStrings (runStripStage
        param.includeVendorInImportPath ((sh u).flatMap (fun e => sortedVals e.2))))) := by
  refine ⟨fun out => rfl, fun out => rfl, ?_, ?_, ?_⟩
  · intro s hno
    unfold stripVendorSuffix
    cases h : lastIndexOf s vendorSeg with
    | none => rfl
    | some i =>
      have hocc := (lastIndexOf_spec_some (by decide) h).1
      rw [hno i] at hocc
      cases hocc
  · intro s i hocc hmax
    cases h : lastIndexOf s vendorSeg with
    | none =>
      have := lastIndexOf_spec_none (by decide) h i
      rw [hocc] at this
      cases this
    | some i0 =>
      obtain ⟨hocc0, hmax0⟩ := lastIndexOf_spec_some (by decide) h
      have hi : i = i0 := le_antisymm (hmax0 i hocc) (hmax i0 hocc0)
      subst hi
      constructor
      · unfold stripVendorSuffix
        rw [h]
      · conv_lhs => rw [← List.take_append_drop (i + vendorSeg.length) s]
        unfold stripVendorSuffix
        rw [h]
  · intro w fuel pd pkgs param sh u h
    unfold RunOut
    rw [h]

/-- Witness for C10: the theorem applied to concrete entries, with the
last-occurrence hypothesis discharged through the `lastIndexOf`
characterization at index 10. -/
theorem runStripStage_spec_witness :
    stripVendorSuffix (str r"a/vendor/b/vendor/c") =
      (str r"a/vendor/b/vendor/c").drop (10 + vendorSeg.length) ∧
    runStripStage true [str r"x/vendor/y"] = [str r"x/vendor/y"] :=
  ⟨(runStripStage_spec.2.2.2.1 (str r"a/vendor/b/vendor/c") 10 (by decide)
      (lastIndexOf_spec_some (by decide) (by decide)).2).1,
    runStripStage_spec.1 [str r"x/vendor/y"]⟩

/-- Claim C8: an import path containing no dot resolves to no packages at
all, and its closure contribution is empty: `getAllImports` on such a path
returns the empty set and leaves the visited set unchanged, so the path is
excluded from the output entirely. -/
theorem getPkgsInDir_stdlib_empty (w : World) (fuel : Nat) (p srcDir projectRoot : Str)
    (exam : Finset Str) (includeTests : Bool) (hdot : p.contains '.' = false)
    (hfuel : 0 < fuel) :
    getPkgsInDir w fuel p srcDir exam = some [] ∧
    getAllImports w fuel p srcDir projectRoot exam includeTests = some (∅, exam) := by
  obtain ⟨f, rfl⟩ : ∃ f, fuel = f + 1 := ⟨fuel - 1, by omega⟩
  have h1 : getPkgsInDir w (f + 1) p srcDir exam = some [] := by
    unfold getPkgsInDir
    rw [if_pos hdot]
  refine ⟨h1, ?_⟩
  unfold getAllImports
  rw [h1]
  rfl

/-- Witness for C8: the theorem applied to the happy-path world at the
dotless import path `fmt`. -/
theorem getPkgsInDir_stdlib_empty_witness :
    getPkgsInDir wOk 1 (str r"fmt") (str r"/r/p") ∅ = some [] ∧
    getAllImports wOk 1 (str r"fmt") (str r"/r/p") (str r"/r/p") ∅ true = some (∅, ∅) :=
  getPkgsInDir_stdlib_empty wOk 1 (str r"fmt") (str r"/r/p") (str r"/r/p") ∅ true
    (by decide) (by decide)

theorem getPkgsInDirLoop_term (w : World) (importPkgPath srcDir : Str)
    (examinedImports : Finset Str) (dirFiles : Finset Str)
    (hfiles : ∀ ign : Finset Str, ∀ f ∈ pkgFiles (w.doImport importPkgPath srcDir ign).1,
      f ∈ dirFiles ∧ f ∉ ign) :
    ∀ fuel ctxIgn pkgs, ctxIgn ⊆ dirFiles → dirFiles.card - ctxIgn.card < fuel →
      ∃ r, getPkgsInDirLoop w importPkgPath srcDir examinedImports fuel ctxIgn pkgs = some r := by
  intro fuel
  induction fuel with
  | zero => intro ctxIgn pkgs hsub hlt; omega
  | succ fuel ih =>
    intro ctxIgn pkgs hsub hlt
    unfold getPkgsInDirLoop
    dsimp only
    split
    · exact ⟨_, rfl⟩
    · split
      · exact ⟨_, rfl⟩
      · split
        · exact ⟨_, rfl⟩
        · split
          · exact ⟨_, rfl⟩
          · rename_i hvne
            set res := w.doImport importPkgPath srcDir ctxIgn with hres
            set valid : Finset Str :=
              ((pkgFiles res.1).filter
                (fun f => f ∉ (res.1.invalidGoFiles.toFinset : Finset Str))).toFinset with hvalid
            have hvsub : valid ⊆ dirFiles := by
              intro x hx
              rw [hvalid, List.mem_toFinset, List.mem_filter] at hx
              exact (hfiles ctxIgn x hx.1).1
            have hvdis : ∀ x ∈ valid, x ∉ ctxIgn := by
              intro x hx
              rw [hvalid, List.mem_toFinset, List.mem_filter] at hx
              exact (hfiles ctxIgn x hx.1).2
            have hne : valid.Nonempty := Finset.nonempty_iff_ne_empty.mpr hvne
            obtain ⟨x, hx⟩ := hne
            have hss : ctxIgn ⊂ ctxIgn ∪ valid := by
              rw [Finset.ssubset_iff_of_subset Finset.subset_union_left]
              exact ⟨x, Finset.mem_union_right _ hx, hvdis x hx⟩
            have hlt2 : ctxIgn.card < (ctxIgn ∪ valid).card := Finset.card_lt_card hss
            have hle : (ctxIgn ∪ valid).card ≤ dirFiles.card :=
              Finset.card_le_card (Finset.union_subset hsub hvsub)
            exact ih (ctxIgn ∪ valid) _ (Finset.union_subset hsub hvsub) (by omega)

/-- Claim C6: the multi-package directory splitter loop terminates.  The
hypothesis states the two facts the Go resolver guarantees: every file name
it reports comes from the finite set of files of the directory, and (since
`doImport` filters the ignore set out of the directory listing) never from
the ignore set it was given.  Under them, the loop run with fuel exceeding
the number of files in the directory finishes by one of its stop conditions
rather than by fuel exhaustion: every iteration that does not stop strictly
grows the ignore set, which is bounded by the finite file set. -/
theorem getPkgsInDir_terminates (w : World) (importPkgPath srcDir : Str)
    (examinedImports : Finset Str) (dirFiles : Finset Str)
    (hfiles : ∀ ign : Finset Str, ∀ f ∈ pkgFiles (w.doImport importPkgPath srcDir ign).1,
      f ∈ dirFiles ∧ f ∉ ign) :
    ∃ r, getPkgsInDir w (dirFiles.card + 1) importPkgPath srcDir examinedImports = some r := by
  unfold getPkgsInDir
  split
  · exact ⟨[], rfl⟩
  · exact getPkgsInDirLoop_term w importPkgPath srcDir examinedImports dirFiles hfiles
      (dirFiles.card + 1) ∅ [] (Finset.empty_subset _) (by simp)

/-- Witness for C6: the theorem applied to the two-file ambiguous-directory
world, whose resolver reports the multiple-package error on the first pass;
the loop stops within card-plus-one iterations. -/
theorem getPkgsInDir_terminates_witness :
    ∃ r, getPkgsInDir cw6 (({str r"a.go", str r"b.go"} : Finset Str).card + 1)
      (str r"m.x") (str r"/d") ∅ = some r := by
  apply getPkgsInDir_terminates
  intro ign
  by_cases h0 : ign = (∅ : Finset Str)
  · subst h0
    decide
  · by_cases h1 : ign = ({str r"b.go"} : Finset Str)
    · subst h1
      decide
    · intro f hf
      have hd : cw6.doImport (str r"m.x") (str r"/d") ign = ({}, ResolveErr.noErr) := by
        simp [cw6, h0, h1]
      rw [hd] at hf
      simp [pkgFiles] at hf

theorem assocSet_mem (k : Str) (v : Finset Str) :
    ∀ l e, e ∈ assocSet k v l → e = (k, v) ∨ e ∈ l := by
  intro l
  induction l with
  | nil =>
    intro e he
    simp only [assocSet, List.mem_singleton] at he
    exact Or.inl he
  | cons e0 rest ih =>
    intro e he
    unfold assocSet at he
    by_cases hk : e0.1 = k
    · rw [if_pos hk] at he
      rcases List.mem_cons.mp he with h | h
      · exact Or.inl h
      · exact Or.inr (List.mem_cons_of_mem e0 h)
    · rw [if_neg hk] at he
      rcases List.mem_cons.mp he with h | h
      · exact Or.inr (h ▸ List.mem_cons_self e0 rest)
      · rcases ih e h with h' | h'
        · exact Or.inl h'
        · exact Or.inr (List.mem_cons_of_mem e0 h')

theorem buildVendorDirs_entries (w : World) (fuel : Nat) (rs : List Pattern) :
    ∀ roots acc res, buildVendorDirs w fuel rs roots acc = GoResult.ok res →
      (∀ e ∈ acc, ∃ inv, allVendoredPackages w fuel e.1 = GoResult.ok inv ∧
        e.2 = inv.image (fun p => transformImportPath p rs)) →
      ∀ e ∈ res, ∃ inv, allVendoredPackages w fuel e.1 = GoResult.ok inv ∧
        e.2 = inv.image (fun p => transformImportPath p rs) := by
  intro roots
  induction roots with
  | nil =>
    intro acc res h hacc
    cases h
    exact hacc
  | cons pkgPath rest ih =>
    intro acc res h hacc
    unfold buildVendorDirs at h
    dsimp only at h
    cases hstat : w.statIsDir (pathJoin pkgPath (str r"vendor")) with
    | none =>
      rw [hstat] at h
      exact ih _ _ h hacc
    | some b =>
      cases b with
      | false =>
        rw [hstat] at h
        exact ih _ _ h hacc
      | true =>
        rw [hstat] at h
        cases hall : allVendoredPackages w fuel (pathJoin pkgPath (str r"vendor")) with
        | err e0 => rw [hall] at h; cases h
        | ok inv =>
          rw [hall] at h
          refine ih _ _ h ?_
          intro e he
          rcases assocSet_mem _ _ acc e he with h' | h'
          · subst h'
            exact ⟨inv, hall, rfl⟩
          · exact hacc e h'

theorem subtractClosures_entries (w : World) (fuel : Nat) (pd : Str) (rs : List Pattern) :
    ∀ roots vd res, subtractClosures w fuel pd rs roots vd = GoResult.ok res →
      ∀ e ∈ res, ∃ e0, e0 ∈ vd ∧ e.1 = e0.1 ∧ e.2 ⊆ e0.2 := by
  intro roots
  induction roots with
  | nil =>
    intro vd res h e he
    cases h
    exact ⟨e, he, rfl, Finset.Subset.refl _⟩
  | cons pkgPath rest ih =>
    intro vd res h e he
    unfold subtractClosures at h
    cases him : allImportsInPkg w fuel pkgPath pd with
    | none => rw [him] at h; cases h
    | some imps =>
      rw [him] at h
      obtain ⟨e1, he1, heq1, hsub1⟩ := ih _ _ h e he
      obtain ⟨e0, he0, rfl⟩ := List.mem_map.mp he1
      exact ⟨e0, he0, heq1, fun x hx => Finset.sdiff_subset (hsub1 hx)⟩

/-- Claim C2: the residual set computed for each vendor directory is a
subset of that vendor-directory initial normalized inventory: after the
inventory is built (the build-constraint-ignoring `allVendoredPackages`
result, normalized entrywise), the calculator only deletes entries from the
set and never adds any. -/
theorem unusedVendoredPackages_subset_inventory (w : World) (fuel : Nat) (projectDir : Str)
    (pkgs ignorePkgs : List Str) (rs : List Pattern) (m : List (Str × Finset Str))
    (h : unusedVendoredPackages w fuel projectDir pkgs ignorePkgs rs = GoResult.ok m) :
    ∀ e ∈ m, ∃ inv, allVendoredPackages w fuel e.1 = GoResult.ok inv ∧
      e.2 ⊆ inv.image (fun p => transformImportPath p rs) := by
  unfold unusedVendoredPackages at h
  dsimp only at h
  cases hb : buildVendorDirs w fuel rs (toAbsPaths pkgs w.wd) [] with
  | err e0 => rw [hb] at h; cases h
  | ok vd =>
    rw [hb] at h
    intro e he
    obtain ⟨e0, he0, heq, hsub⟩ := subtractClosures_entries w fuel _ rs _ vd m h e he
    obtain ⟨inv, hinv, hval⟩ :=
      buildVendorDirs_entries w fuel rs _ [] vd hb (by intro e2 he2; cases he2) e0 he0
    refine ⟨inv, ?_, ?_⟩
    · rw [heq]
      exact hinv
    · rw [hval] at hsub
      exact hsub

/-- Witness for C2: the theorem applied to the happy-path world, at the
entry computed for its single vendor directory. -/
theorem unusedVendoredPackages_subset_inventory_witness :
    ∃ m e, unusedVendoredPackages wOk 6 (str r"/r/p") [str r"/r/p"] [] [] = GoResult.ok m ∧
      e ∈ m ∧ ∃ inv, allVendoredPackages wOk 6 e.1 = GoResult.ok inv ∧
        e.2 ⊆ inv.image (fun p => transformImportPath p []) :=
  ⟨_, _, rfl, List.mem_cons_self _ _,
    unusedVendoredPackages_subset_inventory wOk 6 (str r"/r/p") [str r"/r/p"] [] [] _ rfl _
      (List.mem_cons_self _ _)⟩

theorem inventoryFold_ok (w : World) (fuel : Nat) :
    ∀ dirs acc, (∀ d ∈ dirs, getPkgsInDir w fuel (str r".") d ∅ ≠ none) →
      ∃ r, inventoryFold w fuel dirs acc = GoResult.ok r := by
  intro dirs
  induction dirs with
  | nil => intro acc _; exact ⟨acc, rfl⟩
  | cons d rest ih =>
    intro acc h
    have hrest : ∀ d' ∈ rest, getPkgsInDir w fuel (str r".") d' ∅ ≠ none :=
      fun d' hd' => h d' (List.mem_cons_of_mem d hd')
    unfold inventoryFold
    split
    · rename_i hnone
      exact absurd hnone (h d (List.mem_cons_self d rest))
    · split
      · split
        · exact ih acc hrest
        · exact ih _ hrest
      · exact ih acc hrest

/-- Claim C9: the vendor inventory builder fails exactly on its three entry
checks, applied to the absolutized input path: a base name other than
`vendor`, a failing stat, or a stat that is not a directory; when all three
checks pass (and, in the model, enough fuel is supplied for the walk), it
returns an inventory. -/
theorem allVendoredPackages_error_conditions (w : World) (fuel : Nat) (p : Str) :
    (pathBase (vendorAbsPath w p) ≠ str r"vendor" →
      allVendoredPackages w fuel p = GoResult.err (GoErr.vendorName (vendorAbsPath w p))) ∧
    (pathBase (vendorAbsPath w p) = str r"vendor" →
      w.statIsDir (vendorAbsPath w p) = none →
      allVendoredPackages w fuel p = GoResult.err (GoErr.statFail (vendorAbsPath w p))) ∧
    (pathBase (vendorAbsPath w p) = str r"vendor" →
      w.statIsDir (vendorAbsPath w p) = some false →
      allVendoredPackages w fuel p = GoResult.err (GoErr.notDir (vendorAbsPath w p))) ∧
    (pathBase (vendorAbsPath w p) = str r"vendor" →
      w.statIsDir (vendorAbsPath w p) = some true →
      (∀ d ∈ walkDirs (vendorAbsPath w p) (w.treeAt (vendorAbsPath w p)),
        getPkgsInDir w fuel (str r".") d ∅ ≠ none) →
      ∃ inv, allVendoredPackages w fuel p = GoResult.ok inv) := by
  refine ⟨?_, ?_, ?_, ?_⟩
  · intro hb
    unfold allVendoredPackages
    dsimp only
    rw [if_pos hb]
  · intro hb hstat
    unfold allVendoredPackages
    dsimp only
    rw [if_neg (fun hcon => hcon hb), hstat]
  · intro hb hstat
    unfold allVendoredPackages
    dsimp only
    rw [if_neg (fun hcon => hcon hb), hstat]
  · intro hb hstat hfuel
    obtain ⟨r, hr⟩ := inventoryFold_ok w fuel
      (walkDirs (vendorAbsPath w p) (w.treeAt (vendorAbsPath w p))) ∅ hfuel
    refine ⟨r, ?_⟩
    unfold allVendoredPackages
    dsimp only
    rw [if_neg (fun hcon => hcon hb), hstat]
    exact hr

/-- Witness for C9: the happy-path vendor directory passes all three checks
and yields an inventory. -/
theorem allVendoredPackages_error_conditions_witness :
    ∃ inv, allVendoredPackages wOk 6 (str r"/r/p/vendor") = GoResult.ok inv :=
  (allVendoredPackages_error_conditions wOk 6 (str r"/r/p/vendor")).2.2.2 (by decide) rfl
    (by decide)

theorem inventoryFold_mem (w : World) (fuel : Nat) :
    ∀ dirs acc res, inventoryFold w fuel dirs acc = GoResult.ok res →
      ∀ q, q ∈ res ↔ q ∈ acc ∨ ∃ d ∈ dirs, contributesPkg w fuel d q := by
  intro dirs
  induction dirs with
  | nil =>
    intro acc res h q
    cases h
    simp
  | cons d rest ih =>
    intro acc res h q
    unfold inventoryFold at h
    cases hg : getPkgsInDir w fuel (str r".") d ∅ with
    | none => rw [hg] at h; cases h
    | some bp =>
      rw [hg] at h
      dsimp only at h
      by_cases ha : bp.any (fun g => !g.name.isEmpty) = true
      · rw [if_pos ha] at h
        cases bp with
        | nil => exact absurd ha (by simp)
        | cons p0 bpr =>
          rw [ih _ _ h q, Finset.mem_insert]
          constructor
          · rintro ((rfl | hacc) | ⟨d', hd', hc⟩)
            · exact Or.inr ⟨d, List.mem_cons_self d rest, p0, bpr, hg, ha, rfl⟩
            · exact Or.inl hacc
            · exact Or.inr ⟨d', List.mem_cons_of_mem d hd', hc⟩
          · rintro (hacc | ⟨d', hd', hc⟩)
            · exact Or.inl (Or.inr hacc)
            · rcases List.mem_cons.mp hd' with rfl | hd'
              · obtain ⟨p0', r', hg', _, hq⟩ := hc
                rw [hg] at hg'
                cases hg'
                exact Or.inl (Or.inl hq.symm)
              · exact Or.inr ⟨d', hd', hc⟩
      · rw [if_neg ha] at h
        rw [ih _ _ h q]
        constructor
        · rintro (hacc | ⟨d', hd', hc⟩)
          · exact Or.inl hacc
          · exact Or.inr ⟨d', List.mem_cons_of_mem d hd', hc⟩
        · rintro (hacc | ⟨d', hd', hc⟩)
          · exact Or.inl hacc
          · rcases List.mem_cons.mp hd' with rfl | hd'
            · obtain ⟨p0', r', hg', ha', _⟩ := hc
              rw [hg] at hg'
              cases hg'
              exact absurd ha' ha
            · exact Or.inr ⟨d', hd', hc⟩

theorem walkDirsList_mem (p : Str) :
    ∀ (children : List (Str × FSNode)) (c : Str × FSNode), c ∈ children →
      ∀ d ∈ walkDirs (p ++ '/' :: c.1) c.2, d ∈ walkDirsList p children := by
  intro children
  induction children with
  | nil => intro c hc; cases hc
  | cons c0 rest ih =>
    intro c hc d hd
    unfold walkDirsList
    rcases List.mem_cons.mp hc with rfl | hc
    · exact List.mem_append_left _ hd
    · exact List.mem_append_right _ (ih c hc d hd)

/-- Counterexample to C4: the vendor inventory walk of the source has no
hidden-directory check at all.  In the world `cw4`, whose vendor tree holds
a package only below the dot-named child `.h`, the walk visits the
directory `/r/p/vendor/.h/q` and the package found there contributes the
entry `v/.h/q` to the inventory, contradicting the claim that directories
whose name starts with a dot are never descended into and that no package
inside a hidden directory ever contributes an entry. -/
theorem allVendoredPackages_hidden_counterexample :
    (str r"/r/p/vendor/.h/q") ∈
      walkDirs (str r"/r/p/vendor") (cw4.treeAt (str r"/r/p/vendor")) ∧
    contributesPkg cw4 3 (str r"/r/p/vendor/.h/q") (str r"v/.h/q") ∧
    ∃ inv, allVendoredPackages cw4 3 (str r"/r/p/vendor") = GoResult.ok inv ∧
      (str r"v/.h/q") ∈ inv := by
  refine ⟨by decide, ⟨pkgH, [], by decide, by decide, by decide⟩, _, rfl, by decide⟩

/-- Claim C4, amended: during the vendor inventory walk every directory of
the vendor tree is visited, with no name-based filtering: the walk visits
the root, and for every child of a visited directory, hidden or not, every
directory walked below that child; membership in the resulting inventory is
exactly contribution by some walked directory.  (Hidden directories are
excluded only from vendor-directory discovery, which considers the `vendor`
child of the explicitly given roots alone.) -/
theorem allVendoredPackages_walk_characterization :
    (∀ (p : Str) (children : List (Str × FSNode)), p ∈ walkDirs p (FSNode.dir children)) ∧
    (∀ (p : Str) (children : List (Str × FSNode)) (c : Str × FSNode), c ∈ children →
      ∀ d ∈ walkDirs (p ++ '/' :: c.1) c.2, d ∈ walkDirs p (FSNode.dir children)) ∧
    (∀ (w : World) (fuel : Nat) (root : Str) (inv : Finset Str),
      allVendoredPackages w fuel root = GoResult.ok inv →
      ∀ q, q ∈ inv ↔ ∃ d ∈ walkDirs (vendorAbsPath w root) (w.treeAt (vendorAbsPath w root)),
        contributesPkg w fuel d q) := by
  refine ⟨?_, ?_, ?_⟩
  · intro p children
    unfold walkDirs
    exact List.mem_cons_self p _
  · intro p children c hc d hd
    unfold walkDirs
    exact List.mem_cons_of_mem p (walkDirsList_mem p children c hc d hd)
  · intro w fuel root inv h q
    unfold allVendoredPackages at h
    dsimp only at h
    by_cases hb : pathBase (vendorAbsPath w root) ≠ str r"vendor"
    · rw [if_pos hb] at h; cases h
    · rw [if_neg hb] at h
      cases hstat : w.statIsDir (vendorAbsPath w root) with
      | none => rw [hstat] at h; cases h
      | some b =>
        cases b with
        | false => rw [hstat] at h; cases h
        | true =>
          rw [hstat] at h
          have := inventoryFold_mem w fuel _ _ _ h q
          simpa using this

/-- Witness for the amended C4: the characterization applied to the
hidden-directory world at its computed inventory. -/
theorem allVendoredPackages_walk_characterization_witness :
    ∃ inv, allVendoredPackages cw4 3 (str r"/r/p/vendor") = GoResult.ok inv ∧
      ((str r"v/.h/q") ∈ inv ↔
        ∃ d ∈ walkDirs (vendorAbsPath cw4 (str r"/r/p/vendor"))
          (cw4.treeAt (vendorAbsPath cw4 (str r"/r/p/vendor"))),
          contributesPkg cw4 3 d (str r"v/.h/q")) :=
  ⟨_, rfl,
    allVendoredPackages_walk_characterization.2.2 cw4 3 (str r"/r/p/vendor") _ rfl _⟩

theorem splitSlashAux_no_slash :
    ∀ (p cur : Str), (∀ c ∈ cur, c ≠ '/') →
      ∀ s ∈ splitSlashAux p cur, ∀ c ∈ s, c ≠ '/' := by
  intro p
  induction p with
  | nil =>
    intro cur hcur s hs c hc
    simp only [splitSlashAux, List.mem_singleton] at hs
    subst hs
    exact hcur c (List.mem_reverse.mp hc)
  | cons a rest ih =>
    intro cur hcur s hs c hc
    unfold splitSlashAux at hs
    by_cases ha : a = '/'
    · rw [if_pos ha] at hs
      rcases List.mem_cons.mp hs with rfl | hs
      · exact hcur c (List.mem_reverse.mp hc)
      · exact ih [] (by intro c' hc'; cases hc') s hs c hc
    · rw [if_neg ha] at hs
      refine ih (a :: cur) ?_ s hs c hc
      intro c' hc'
      rcases List.mem_cons.mp hc' with rfl | hc'
      · exact ha
      · exact hcur c' hc'

theorem splitSlash_no_slash (p : Str) : ∀ s ∈ splitSlash p, ∀ c ∈ s, c ≠ '/' :=
  splitSlashAux_no_slash p [] (by intro c hc; cases hc)

theorem cleanStep_true_ok (acc : List Str) (seg : Str)
    (hacc : ∀ x ∈ acc, SegOK x) (hseg : ∀ c ∈ seg, c ≠ '/') :
    ∀ x ∈ cleanStep true acc seg, SegOK x := by
  intro x hx
  unfold cleanStep at hx
  split at hx
  · exact hacc x hx
  · split at hx
    · split at hx
      · exact hacc x (List.dropLast_subset _ hx)
      · split at hx
        · exact hacc x hx
        · rename_i hcon
          exact absurd rfl hcon
    · rename_i h1 h2
      rcases List.mem_append.mp hx with hx | hx
      · exact hacc x hx
      · rw [List.mem_singleton] at hx
        subst hx
        exact ⟨fun he => h1 (Or.inl he), fun he => h1 (Or.inr he), h2, hseg⟩

theorem foldl_cleanStep_ok :
    ∀ (l : List Str) (acc : List Str), (∀ x ∈ acc, SegOK x) →
      (∀ s ∈ l, ∀ c ∈ s, c ≠ '/') →
      ∀ x ∈ l.foldl (cleanStep true) acc, SegOK x := by
  intro l
  induction l with
  | nil => intro acc hacc _ x hx; exact hacc x hx
  | cons s rest ih =>
    intro acc hacc hl x hx
    simp only [List.foldl_cons] at hx
    exact ih _ (cleanStep_true_ok acc s hacc (hl s (List.mem_cons_self s rest)))
      (fun s' hs' => hl s' (List.mem_cons_of_mem s hs')) x hx

theorem cleanSegs_true_ok (p : Str) : ∀ x ∈ cleanSegs true p, SegOK x :=
  foldl_cleanStep_ok (splitSlash p) [] (by intro y hy; cases hy) (splitSlash_no_slash p)

theorem splitSlashAux_no_slash_eq :
    ∀ (s cur : Str), (∀ c ∈ s, c ≠ '/') → splitSlashAux s cur = [cur.reverse ++ s] := by
  intro s
  induction s with
  | nil => intro cur _; simp [splitSlashAux]
  | cons a rest ih =>
    intro cur h
    have ha : a ≠ '/' := h a (List.mem_cons_self a rest)
    unfold splitSlashAux
    rw [if_neg ha, ih (a :: cur) (fun c hc => h c (List.mem_cons_of_mem a hc))]
    simp

theorem splitSlashAux_seg :
    ∀ (s : Str) (rest cur : Str), (∀ c ∈ s, c ≠ '/') →
      splitSlashAux (s ++ '/' :: rest) cur = (cur.reverse ++ s) :: splitSlashAux rest [] := by
  intro s
  induction s with
  | nil => intro rest cur _; simp [splitSlashAux]
  | cons a s' ih =>
    intro rest cur h
    have ha : a ≠ '/' := h a (List.mem_cons_self a s')
    show splitSlashAux (a :: (s' ++ '/' :: rest)) cur = _
    rw [show splitSlashAux (a :: (s' ++ '/' :: rest)) cur
        = if a = '/' then cur.reverse :: splitSlashAux (s' ++ '/' :: rest) []
          else splitSlashAux (s' ++ '/' :: rest) (a :: cur) from rfl]
    rw [if_neg ha, ih rest (a :: cur) (fun c hc => h c (List.mem_cons_of_mem a hc))]
    simp

theorem splitSlash_joinSegs :
    ∀ (l : List Str), l ≠ [] → (∀ s ∈ l, s ≠ [] ∧ ∀ c ∈ s, c ≠ '/') →
      splitSlash (joinSegs l) = l := by
  intro l
  induction l with
  | nil => intro h _; exact absurd rfl h
  | cons s rest ih =>
    intro _ h
    cases rest with
    | nil =>
      show splitSlash (joinSegs [s]) = [s]
      have : joinSegs [s] = s := rfl
      rw [this]
      unfold splitSlash
      rw [splitSlashAux_no_slash_eq s [] (h s (List.mem_cons_self s [])).2]
      simp
    | cons s2 rest2 =>
      have hj : joinSegs (s :: s2 :: rest2) = s ++ '/' :: joinSegs (s2 :: rest2) := rfl
      rw [hj]
      unfold splitSlash
      rw [splitSlashAux_seg s _ [] (h s (List.mem_cons_self s _)).2]
      simp only [List.reverse_nil, List.nil_append]
      congr 1
      exact ih (by simp) (fun s' hs' => h s' (List.mem_cons_of_mem s hs'))

theorem splitSlash_slash_cons (x : Str) : splitSlash ('/' :: x) = [] :: splitSlash x := by
  unfold splitSlash
  rw [splitSlashAux]
  rw [if_pos rfl]
  rfl

theorem filter_nonempty_eq : ∀ (l : List Str), (∀ a ∈ l, a ≠ []) →
    List.filter (fun s => s ≠ []) l = l := by
  intro l hl
  induction l with
  | nil => rfl
  | cons a t ih =>
    rw [List.filter_cons]
    split
    · congr 1
      exact ih (fun b hb => hl b (List.mem_cons_of_mem a hb))
    · rename_i hcon
      exfalso
      apply hcon
      simpa using hl a (List.mem_cons_self a t)

theorem segsOf_rooted_join (l : List Str) (h : ∀ s ∈ l, SegOK s) :
    segsOf ('/' :: joinSegs l) = l := by
  cases l with
  | nil => decide
  | cons s rest =>
    unfold segsOf
    rw [splitSlash_slash_cons,
      splitSlash_joinSegs (s :: rest) (by simp)
        (fun s' hs' => ⟨(h s' hs').1, (h s' hs').2.2.2⟩)]
    rw [List.filter_cons]
    split
    · rename_i hcon
      exfalso
      simp at hcon
    · exact filter_nonempty_eq (s :: rest) (fun a ha => (h a ha).1)

theorem cleanPath_rooted (p : Str) (h : isAbs p = true) :
    cleanPath p = '/' :: joinSegs (cleanSegs true p) := by
  have hp : p ≠ [] := by
    intro he
    subst he
    simp [isAbs] at h
  unfold cleanPath
  rw [if_neg hp]
  dsimp only
  rw [h, if_pos rfl]

theorem segsOf_cleanPath_rooted (p : Str) (h : isAbs p = true) :
    segsOf (cleanPath p) = cleanSegs true p := by
  rw [cleanPath_rooted p h]
  exact segsOf_rooted_join _ (cleanSegs_true_ok p)

theorem isAbs_cleanPath_rooted (p : Str) (h : isAbs p = true) :
    isAbs (cleanPath p) = true := by
  rw [cleanPath_rooted p h]
  rfl

theorem commonLen_take_eq : ∀ a b : List Str,
    a.take (commonLen a b) = b.take (commonLen a b) := by
  intro a
  induction a with
  | nil => intro b; rfl
  | cons x as ih =>
    intro b
    cases b with
    | nil => rfl
    | cons y bs =>
      by_cases h : x = y
      · subst h
        show List.take (if x = x then commonLen as bs + 1 else 0) (x :: as)
          = List.take (if x = x then commonLen as bs + 1 else 0) (x :: bs)
        rw [if_pos rfl]
        simp only [List.take_succ_cons]
        rw [ih bs]
      · simp [commonLen, h]

theorem commonLen_head_ne : ∀ a b : List Str, ∀ x y : Str, ∀ t u : List Str,
    a.drop (commonLen a b) = x :: t → b.drop (commonLen a b) = y :: u → x ≠ y := by
  intro a
  induction a with
  | nil => intro b x y t u ha _; cases ha
  | cons a0 as ih =>
    intro b x y t u ha hb
    cases b with
    | nil => cases hb
    | cons b0 bs =>
      by_cases h : a0 = b0
      · subst h
        simp only [commonLen, if_pos rfl, List.drop_succ_cons] at ha hb
        exact ih bs x y t u ha hb
      · simp only [commonLen, if_neg h, List.drop_zero] at ha hb
        cases ha
        cases hb
        exact h

theorem commonLen_of_isPrefix : ∀ a b : List Str, a <+: b → commonLen a b = a.length := by
  intro a
  induction a with
  | nil => intro b _; rfl
  | cons x as ih =>
    intro b hpre
    obtain ⟨t, ht⟩ := hpre
    subst ht
    show (if x = x then commonLen as (as ++ t) + 1 else 0) = (x :: as).length
    rw [if_pos rfl, ih (as ++ t) ⟨t, rfl⟩]
    rfl

theorem dropLast_drop_comm : ∀ (l : List Str) (n : Nat),
    l.dropLast.drop n = (l.drop n).dropLast := by
  intro l
  induction l with
  | nil => intro n; simp
  | cons a t ih =>
    intro n
    cases n with
    | zero => simp
    | succ n =>
      cases t with
      | nil => simp
      | cons b u => simpa using ih n

theorem joinSegs_cons_eq (t0 : Str) (trest : List Str) :
    joinSegs (t0 :: trest) = t0 ++ (if trest = [] then [] else '/' :: joinSegs trest) := by
  cases trest with
  | nil => simp [joinSegs]
  | cons a b => simp [joinSegs]

theorem notPrefix_dotdotslash (t0 : Str) (trest : List Str) (h : SegOK t0) :
    ¬ (str r"../" <+: joinSegs (t0 :: trest)) := by
  obtain ⟨hne, hdot, hdd, hsl⟩ := h
  rintro ⟨t, ht⟩
  rw [joinSegs_cons_eq] at ht
  cases t0 with
  | nil => exact hne rfl
  | cons c1 t1 =>
    have ht1 : '.' :: '.' :: '/' :: t
        = c1 :: (t1 ++ (if trest = [] then [] else '/' :: joinSegs trest)) := ht
    injection ht1 with h1 hr1
    cases t1 with
    | nil =>
      rw [← h1] at hne hdot
      exact hdot rfl
    | cons c2 t2 =>
      have ht2 : '.' :: '/' :: t
          = c2 :: (t2 ++ (if trest = [] then [] else '/' :: joinSegs trest)) := hr1
      injection ht2 with h2 hr2
      cases t2 with
      | nil =>
        rw [← h1, ← h2] at hdd
        exact hdd rfl
      | cons c3 t3 =>
        have ht3 : '/' :: t
            = c3 :: (t3 ++ (if trest = [] then [] else '/' :: joinSegs trest)) := hr2
        injection ht3 with h3 _
        exact hsl c3 (by simp) h3.symm

theorem prefix_dotdotslash_cons (trest : List Str) (h : trest ≠ []) :
    str r"../" <+: joinSegs (str r".." :: trest) := by
  cases trest with
  | nil => exact absurd rfl h
  | cons a b => exact ⟨joinSegs (a :: b), rfl⟩

theorem dotdot_self_notPrefix : ¬ (str r"../" <+: joinSegs [str r".."]) := by
  rintro ⟨t, ht⟩
  have := congrArg List.length ht
  simp [str, joinSegs] at this

theorem rel_rooted (root dir : Str) (hroot : isAbs root = true) (hdir : isAbs dir = true) :
    rel root dir = some (
      if cleanPath root = cleanPath dir then str r"."
      else joinSegs
        (((cleanSegs true root).drop
              (commonLen (cleanSegs true root) (cleanSegs true dir))).map (fun _ => str r"..")
          ++ (cleanSegs true dir).drop
              (commonLen (cleanSegs true root) (cleanSegs true dir)))) := by
  unfold rel
  dsimp only
  by_cases heq : cleanPath root = cleanPath dir
  · rw [if_pos heq, if_pos heq]
  · rw [if_neg heq, if_neg heq]
    have hnotdot : cleanPath root ≠ str r"." := by
      rw [cleanPath_rooted root hroot]
      intro hcon
      have hc : '/' = '.' := by injection hcon
      exact absurd hc (by decide)
    rw [if_neg hnotdot]
    rw [isAbs_cleanPath_rooted root hroot, isAbs_cleanPath_rooted dir hdir]
    rw [if_neg (show ¬ ((true == true) = false) by decide)]
    rw [segsOf_cleanPath_rooted root hroot, segsOf_cleanPath_rooted dir hdir]
    have hnotdd : ¬ (((cleanSegs true root).drop
        (commonLen (cleanSegs true root) (cleanSegs true dir))).head?
          = some (str r"..")) := by
      cases hdrop : (cleanSegs true root).drop
          (commonLen (cleanSegs true root) (cleanSegs true dir)) with
      | nil => simp
      | cons x bt =>
        simp only [List.head?_cons]
        intro hcon
        have hx : x = str r".." := by injection hcon
        have hmem : x ∈ cleanSegs true root :=
          List.drop_subset _ _ (hdrop ▸ List.mem_cons_self x bt)
        exact (cleanSegs_true_ok root x hmem).2.2.1 hx
    rw [if_neg hnotdd]
    by_cases hbr : (cleanSegs true root).drop
        (commonLen (cleanSegs true root) (cleanSegs true dir)) ≠ []
    · rw [if_pos hbr]
    · rw [if_neg hbr]
      push_neg at hbr
      rw [hbr]
      simp

/-- Claim C5, amended: a resolved package receives internal treatment in
the closure computation (its directory becomes the resolution context and,
at the root level, its test imports are folded in) exactly when `relCheck`
accepts its directory; for absolute paths this holds if and only if the
directory lies within `projectRoot` (the spec notion, `liesWithinSpec`) OR
the directory is the immediate parent of `projectRoot` (its cleaned
segments are the cleaned segments of the root minus the last one) — the
parent case arises because `filepath.Rel` then returns exactly `".."`,
which does not carry the textual prefix `"../"` that the source tests. -/
theorem relCheck_characterization (root dir : Str) (hroot : isAbs root = true)
    (hdir : isAbs dir = true) :
    relCheck root dir = true ↔
      (liesWithinSpec root dir = true ∨
        (segsOf (cleanPath root) ≠ [] ∧
          segsOf (cleanPath dir) = (segsOf (cleanPath root)).dropLast)) := by
  have hBok : ∀ x ∈ cleanSegs true root, SegOK x := cleanSegs_true_ok root
  have hTok : ∀ x ∈ cleanSegs true dir, SegOK x := cleanSegs_true_ok dir
  have hB := segsOf_cleanPath_rooted root hroot
  have hT := segsOf_cleanPath_rooted dir hdir
  rw [hB, hT]
  have hlies : liesWithinSpec root dir
      = (cleanSegs true root).isPrefixOf (cleanSegs true dir) := by
    unfold liesWithinSpec
    rw [hroot, hdir, hB, hT]
    simp
  rw [hlies]
  unfold relCheck
  rw [rel_rooted root dir hroot hdir]
  dsimp only
  have hkey : ∀ y : Str, ((!((str r"../").isPrefixOf y)) = true) ↔ ¬ (str r"../" <+: y) := by
    intro y
    constructor
    · intro hf hcon
      rw [← List.isPrefixOf_iff_prefix] at hcon
      rw [hcon] at hf
      cases hf
    · intro hn
      cases hy : (str r"../").isPrefixOf y with
      | false => rfl
      | true => exact absurd (List.isPrefixOf_iff_prefix.mp hy) hn
  rw [hkey]
  by_cases heq : cleanPath root = cleanPath dir
  · rw [if_pos heq]
    have hBT : cleanSegs true root = cleanSegs true dir := by
      have hs := congrArg segsOf heq
      rwa [hB, hT] at hs
    constructor
    · intro _
      left
      exact List.isPrefixOf_iff_prefix.mpr (hBT ▸ List.prefix_refl (cleanSegs true root))
    · intro _
      rintro ⟨t, ht⟩
      have hlen := congrArg List.length ht
      simp [str] at hlen
  · rw [if_neg heq]
    cases hbd : (cleanSegs true root).drop
        (commonLen (cleanSegs true root) (cleanSegs true dir)) with
    | nil =>
      simp only [hbd, List.map_nil, List.nil_append]
      have hBeq : cleanSegs true root
          = (cleanSegs true dir).take (commonLen (cleanSegs true root) (cleanSegs true dir)) := by
        conv_lhs => rw [← List.take_append_drop
          (commonLen (cleanSegs true root) (cleanSegs true dir)) (cleanSegs true root)]
        rw [hbd, List.append_nil, commonLen_take_eq]
      have hBpre : cleanSegs true root <+: cleanSegs true dir := by
        rw [hBeq]
        exact List.take_prefix _ _
      cases htd : (cleanSegs true dir).drop
          (commonLen (cleanSegs true root) (cleanSegs true dir)) with
      | nil =>
        exfalso
        apply heq
        have hBT : cleanSegs true root = cleanSegs true dir := by
          conv_lhs => rw [← List.take_append_drop
            (commonLen (cleanSegs true root) (cleanSegs true dir)) (cleanSegs true root)]
          conv_rhs => rw [← List.take_append_drop
            (commonLen (cleanSegs true root) (cleanSegs true dir)) (cleanSegs true dir)]
          rw [hbd, htd, commonLen_take_eq]
        rw [cleanPath_rooted root hroot, cleanPath_rooted dir hdir, hBT]
      | cons t0 ts =>
        constructor
        · intro _
          left
          exact List.isPrefixOf_iff_prefix.mpr hBpre
        · intro _
          exact notPrefix_dotdotslash t0 ts
            (hTok t0 (List.drop_subset _ _ (htd ▸ List.mem_cons_self t0 ts)))
    | cons x bt =>
      cases bt with
      | nil =>
        cases htd : (cleanSegs true dir).drop
            (commonLen (cleanSegs true root) (cleanSegs true dir)) with
        | nil =>
          simp only [hbd, htd, List.map_cons, List.map_nil, List.append_nil]
          have hBeq : cleanSegs true root
              = (cleanSegs true root).take
                  (commonLen (cleanSegs true root) (cleanSegs true dir)) ++ [x] := by
            conv_lhs => rw [← List.take_append_drop
              (commonLen (cleanSegs true root) (cleanSegs true dir)) (cleanSegs true root)]
            rw [hbd]
          constructor
          · intro _
            right
            constructor
            · intro hB0
              rw [hB0] at hbd
              simp at hbd
            · have hTeq : cleanSegs true dir
                  = (cleanSegs true dir).take
                      (commonLen (cleanSegs true root) (cleanSegs true dir)) := by
                conv_lhs => rw [← List.take_append_drop
                  (commonLen (cleanSegs true root) (cleanSegs true dir)) (cleanSegs true dir)]
                rw [htd, List.append_nil]
              rw [hTeq, ← commonLen_take_eq]
              conv_rhs => rw [hBeq]
              rw [List.dropLast_concat]
          · intro _
            exact dotdot_self_notPrefix
        | cons t0 ts =>
          simp only [hbd, htd, List.map_cons, List.map_nil, List.singleton_append]
          constructor
          · intro hcon
            exact absurd (prefix_dotdotslash_cons (t0 :: ts) (by simp)) hcon
          · rintro (hin | ⟨hBne, hdl⟩)
            · exfalso
              have hkB := commonLen_of_isPrefix (cleanSegs true root) (cleanSegs true dir)
                (List.isPrefixOf_iff_prefix.mp hin)
              rw [hkB, List.drop_length] at hbd
              cases hbd
            · exfalso
              have hBeq : cleanSegs true root
                  = (cleanSegs true root).take
                      (commonLen (cleanSegs true root) (cleanSegs true dir)) ++ [x] := by
                conv_lhs => rw [← List.take_append_drop
                  (commonLen (cleanSegs true root) (cleanSegs true dir)) (cleanSegs true root)]
                rw [hbd]
              have hdl2 : cleanSegs true dir
                  = (cleanSegs true root).take
                      (commonLen (cleanSegs true root) (cleanSegs true dir)) := by
                calc cleanSegs true dir = (cleanSegs true root).dropLast := hdl
                  _ = ((cleanSegs true root).take
                        (commonLen (cleanSegs true root) (cleanSegs true dir))
                      ++ [x]).dropLast := by rw [← hBeq]
                  _ = (cleanSegs true root).take
                        (commonLen (cleanSegs true root) (cleanSegs true dir)) :=
                    List.dropLast_concat
              have hlen1 : (cleanSegs true dir).length
                  ≤ commonLen (cleanSegs true root) (cleanSegs true dir) := by
                conv_lhs => rw [hdl2]
                exact List.length_take_le _ _
              have hlen2 : ¬ ((cleanSegs true dir).length
                  ≤ commonLen (cleanSegs true root) (cleanSegs true dir)) := by
                intro hc
                rw [List.drop_eq_nil_of_le hc] at htd
                cases htd
              exact hlen2 hlen1
      | cons x2 bt2 =>
        simp only [hbd, List.map_cons, List.cons_append]
        constructor
        · intro hcon
          exact absurd (prefix_dotdotslash_cons _ (by simp)) hcon
        · rintro (hin | ⟨hBne, hdl⟩)
          · exfalso
            have hkB := commonLen_of_isPrefix (cleanSegs true root) (cleanSegs true dir)
              (List.isPrefixOf_iff_prefix.mp hin)
            rw [hkB, List.drop_length] at hbd
            cases hbd
          · exfalso
            have hTd : (cleanSegs true dir).drop
                (commonLen (cleanSegs true root) (cleanSegs true dir))
                = ((cleanSegs true root).drop
                  (commonLen (cleanSegs true root) (cleanSegs true dir))).dropLast := by
              rw [hdl, dropLast_drop_comm]
            rw [hbd] at hTd
            have hTd2 : (cleanSegs true dir).drop
                (commonLen (cleanSegs true root) (cleanSegs true dir))
                = x :: (x2 :: bt2).dropLast := by
              rw [hTd]
              rfl
            exact commonLen_head_ne (cleanSegs true root) (cleanSegs true dir) x x _ _
              hbd hTd2 rfl

/-- Counterexample to C5: in `cw5` the package resolved for `t.t` has
directory `/a`, the parent of the project root `/a/b`; that directory does
not lie within the project root (`liesWithinSpec` is false), yet the source
gives the package internal treatment — `relCheck` accepts it because
`filepath.Rel` returns exactly `".."`, which does not start with `"../"` —
and with `includeTests` set, the test import `u.u` of that package is
folded into the closure. -/
theorem getAllImports_parent_internal_counterexample :
    (∃ S E, getAllImports cw5 9 (str r"t.t") (str r"/a/b") (str r"/a/b") ∅ true
        = some (S, E) ∧ S = {str r"t.t", str r"u.u"} ∧ (str r"u.u") ∈ S) ∧
    liesWithinSpec (str r"/a/b") (str r"/a") = false ∧
    relCheck (str r"/a/b") (str r"/a") = true :=
  ⟨⟨_, _, rfl, by decide, by decide⟩, by decide, by decide⟩

/-- Witness for the amended C5: the characterization applied to the
parent-directory pair, whose right-hand side holds through the dropLast
disjunct. -/
theorem relCheck_characterization_witness :
    relCheck (str r"/a/b") (str r"/a") = true ↔
      (liesWithinSpec (str r"/a/b") (str r"/a") = true ∨
        (segsOf (cleanPath (str r"/a/b")) ≠ [] ∧
          segsOf (cleanPath (str r"/a")) = (segsOf (cleanPath (str r"/a/b"))).dropLast)) :=
  relCheck_characterization (str r"/a/b") (str r"/a") (by decide) (by decide)

theorem foldl_congr_fun {α β : Type} (f g : β → α → β) (h : ∀ b a, f b a = g b a) :
    ∀ (l : List α) (b : β), l.foldl f b = l.foldl g b := by
  intro l
  induction l with
  | nil => intro b; rfl
  | cons a t ih =>
    intro b
    simp only [List.foldl_cons]
    rw [h b a]
    exact ih (g b a)

theorem getAllImports_false_eq_noTests (w : World) :
    ∀ (fuel : Nat) (p srcDir projectRoot : Str) (exam : Finset Str),
      getAllImports w fuel p srcDir projectRoot exam false
        = getAllImportsNoTests w fuel p srcDir projectRoot exam := by
  intro fuel
  induction fuel with
  | zero => intro p s r e; rfl
  | succ fuel ih =>
    intro p s r e
    unfold getAllImports getAllImportsNoTests
    cases hg : getPkgsInDir w (fuel + 1) p s e with
    | none => rfl
    | some pkgs =>
      apply foldl_congr_fun
      intro st pkg
      cases st with
      | none => rfl
      | some pr =>
        cases pr with
        | mk acc exam2 =>
          dsimp only
          simp only [Bool.and_false, Bool.false_eq_true, if_false, List.append_nil]
          refine foldl_congr_fun _ _ ?_ _ _
          intro st2 imp
          cases st2 with
          | none => rfl
          | some pr2 =>
            cases pr2 with
            | mk acc2 exam3 =>
              dsimp only
              by_cases hmem : imp ∈ exam3
              · rw [if_pos hmem, if_pos hmem]
              · rw [if_neg hmem, if_neg hmem, ih]

/-- Claim C3: in the closure computation, every recursive call made for a
direct import passes `includeTests = false` regardless of the caller, so
that with `includeTests = false` the whole computation coincides with the
test-free computation `getAllImportsNoTests` (first conjunct: test imports
are never consulted below the root level).  Behaviourally, in the chain
world `cw3` where `x.b` is reachable only through a test file of the root
package `x.a` and `x.c` only through a test file of `x.b`: the closure of
`x.a` with tests enabled contains `x.b` (root-level test import treated as
used) but not `x.c` (test import of a transitively discovered dependency,
still unused), while the closure rooted at `x.b` does contain `x.c`. -/
theorem getAllImports_testImports_rootOnly :
    (∀ (w : World) (fuel : Nat) (p srcDir projectRoot : Str) (exam : Finset Str),
      getAllImports w fuel p srcDir projectRoot exam false
        = getAllImportsNoTests w fuel p srcDir projectRoot exam) ∧
    (∃ S E, getAllImports cw3 9 (str r"x.a") (str r"/p") (str r"/p") ∅ true = some (S, E) ∧
      S = {str r"x.a", str r"x.b"} ∧ (str r"x.b") ∈ S ∧ (str r"x.c") ∉ S) ∧
    (∃ S E, getAllImports cw3 9 (str r"x.b") (str r"/p") (str r"/p") ∅ true = some (S, E) ∧
      S = {str r"x.b", str r"x.c"} ∧ (str r"x.c") ∈ S) :=
  ⟨fun w fuel p s r e => getAllImports_false_eq_noTests w fuel p s r e,
    ⟨_, _, rfl, by decide, by decide, by decide⟩,
    ⟨_, _, rfl, by decide, by decide⟩⟩
